import Mathlib

/-! Knob controller (`src/knobs.cpp`): embedding and verified properties.

The program samples three potentiometers, rescales every sample to a
fixed-point percentage (`32768` = 100%) and periodically sends the three
percentages as one CAN frame.

Embedding conventions.

* The target is a 32-bit platform: `int`, `int32_t` and `unsigned long` are
  32 bits wide.  Unsigned values are stored as `Nat`; every conversion to an
  unsigned type is an explicit reduction modulo `2 ^ w`, and every signed
  32-bit result goes through `wrapI32`.
* The global arrays of length `knobCount` are functions on `Fin knobCount`.
* Division by zero has no defined result in C++: `normalizeKnob` returns
  `none` there.
* `millis()` and `analogRead()` are inputs: each call of `every` receives the
  readings of the (up to two) calls of `millis()` it makes.
* Each instantiation of the template `every` owns its `static last`; the two
  instantiations of the program are the fields `lastPrint` and `lastTransmit`.
-/

namespace Knobs

/-! ## Machine integers -/

/-- Conversion to `uint8_t`. -/
def wrapU8 (x : Int) : Nat := (x % 256).toNat

/-- Conversion to `uint16_t`. -/
def wrapU16 (x : Int) : Nat := (x % 65536).toNat

/-- Conversion to a 32-bit `unsigned long`. -/
def wrapU32 (x : Int) : Nat := (x % 4294967296).toNat

/-- Two's complement reading of a 32-bit signed result. -/
def wrapI32 (x : Int) : Int := (x + 2147483648) % 4294967296 - 2147483648

/-! ## Globals -/

/-- Source: `const unsigned knobCount = 3;` -/
def knobCount : Nat := 3

/-- Source: `const uint16_t knob100Percent = 32768;` -/
def knob100Percent : Nat := 32768

/-- Modelled from the spec: the CAN message type is declared in the platform
headers, which are not part of the repository.  A message carries an
identifier, a payload length and a byte payload; a classic CAN frame has eight
payload slots. -/
structure CANMessage where
  id : Nat
  len : Nat
  data : List Nat

/-- A default-constructed message: all fields zero. -/
def CANMessage.empty : CANMessage := ⟨0, 0, List.replicate 8 0⟩

/-- One value printed by `printKnobs`: knob index, raw count and the
fixed-point percentage handed to the formatter (the floating-point formatting
itself is not modelled). -/
structure PrintItem where
  idx : Nat
  raw : Nat
  percent : Nat

/-- The mutable globals of the program, the two `static last` timers and the
two output devices (console lines and transmitted CAN frames, oldest first). -/
structure State where
  knobValueRaw : Fin knobCount → Nat
  knobValueLow : Fin knobCount → Nat
  knobValueHigh : Fin knobCount → Nat
  knobPercent : Fin knobCount → Nat
  lastPrint : Nat
  lastTransmit : Nat
  serialOut : List (List PrintItem)
  canOut : List CANMessage

/-- The state after static initialisation. -/
def init : State where
  knobValueRaw := fun _ => 0
  knobValueLow := fun _ => 30
  knobValueHigh := fun _ => 4060
  knobPercent := fun _ => 0
  lastPrint := 0
  lastTransmit := 0
  serialOut := []
  canOut := []

/-! ## The throttle `every` -/

/-- The readings returned by the calls of `millis()` inside one call of
`every`: the one in the test and the one stored into `last` (the second call
happens only when the test succeeds). -/
structure Millis where
  atTest : Nat
  atStore : Nat

/-- Source: `millis() - last`, an `unsigned long` subtraction. -/
def elapsed (now last : Nat) : Nat := wrapU32 ((now : Int) - (last : Int))

/-- Source: the guard `millis() - last > intervalMillis`. -/
def everyFires (intervalMillis : Nat) (clk : Millis) (last : Nat) : Bool :=
  decide (elapsed clk.atTest last > intervalMillis)

/-- Source: `every(intervalMillis, fn)`.  Takes the current value of the
`static last` and the program state, returns the new value of `last` and the
state after the call. -/
def every {σ : Type} (intervalMillis : Nat) (fn : σ → σ) (clk : Millis) (last : Nat) (s : σ) :
    Nat × σ :=
  if everyFires intervalMillis clk last then
    (wrapU32 (clk.atStore : Int), fn s)
  else
    (last, s)

/-! ## Sampling and normalisation -/

/-- Source: `readKnob(i)`; `adc` is the value returned by `analogRead`. -/
def readKnob (adc : Int) (i : Fin knobCount) (s : State) : State :=
  { s with knobValueRaw := Function.update s.knobValueRaw i (wrapU16 adc) }

/-- The arithmetic of `normalizeKnob` on one knob: the value stored into
`knobPercent[i]`, or `none` when `range` is zero. -/
def normalize (raw low high : Nat) : Option Nat :=
  let range : Nat := wrapU16 ((high : Int) - (low : Int))
  if range = 0 then none
  else
    let percent : Int :=
      wrapI32 (Int.tdiv (wrapI32 (wrapI32 ((raw : Int) - (low : Int)) * (knob100Percent : Int)))
        (range : Int))
    some (wrapU16 (if percent < 0 then 0
      else if percent > (knob100Percent : Int) then (knob100Percent : Int) else percent))

/-- Source: `normalizeKnob(i)`. -/
def normalizeKnob (i : Fin knobCount) (s : State) : Option State :=
  match normalize (s.knobValueRaw i) (s.knobValueLow i) (s.knobValueHigh i) with
  | none => none
  | some p => some { s with knobPercent := Function.update s.knobPercent i p }

/-- Source: `readKnobs()`, the loop over `i = 0 .. knobCount - 1`. -/
def readKnobs (adc : Fin knobCount → Int) (s : State) : Option State :=
  (List.finRange knobCount).foldlM (fun st i => normalizeKnob i (readKnob (adc i) i st)) s

/-! ## Output -/

/-- Source: the body of the lambda in `printKnobs`. -/
def printBody (s : State) : State :=
  { s with serialOut := s.serialOut ++
      [(List.finRange knobCount).map
        (fun i => PrintItem.mk i.val (s.knobValueRaw i) (s.knobPercent i))] }

/-- Source: `printKnobs()`. -/
def printKnobs (clk : Millis) (s : State) : State :=
  let r := every 200 printBody clk s.lastPrint s
  { r.2 with lastPrint := r.1 }

/-- Source: `knobPercent[i] * 255 / 32768` stored into a `uint8_t`. -/
def percentToByte (p : Nat) : Nat :=
  wrapU8 (wrapI32 (Int.tdiv (wrapI32 ((p : Int) * 255)) 32768))

/-- Source: the message built by the lambda in `transmitCAN`. -/
def canMessage (s : State) : CANMessage :=
  let m0 := CANMessage.empty
  let m1 := { m0 with id := 0x110 }
  let m2 := { m1 with len := 3 }
  let m3 := { m2 with data := m2.data.set 0 (percentToByte (s.knobPercent ⟨0, by decide⟩)) }
  let m4 := { m3 with data := m3.data.set 1 (percentToByte (s.knobPercent ⟨1, by decide⟩)) }
  { m4 with data := m4.data.set 2 (percentToByte (s.knobPercent ⟨2, by decide⟩)) }

/-- Source: the body of the lambda in `transmitCAN`. -/
def transmitBody (s : State) : State :=
  { s with canOut := s.canOut ++ [canMessage s] }

/-- Source: `transmitCAN()`. -/
def transmitCAN (clk : Millis) (s : State) : State :=
  let r := every 100 transmitBody clk s.lastTransmit s
  { r.2 with lastTransmit := r.1 }

/-! ## The main loop -/

/-- What one iteration of `loop` reads from its environment. -/
structure LoopInput where
  adc : Fin knobCount → Int
  printClk : Millis
  canClk : Millis

/-- Source: `loop()`. -/
def loop (inp : LoopInput) (s : State) : Option State :=
  match readKnobs inp.adc s with
  | none => none
  | some s1 => some (transmitCAN inp.canClk (printKnobs inp.printClk s1))

/-- Repeated execution of `loop`, one input per iteration. -/
def runLoop : List LoopInput → State → Option State
  | [], s => some s
  | inp :: rest, s =>
    match loop inp s with
    | none => none
    | some s1 => runLoop rest s1

/-! ## Predicates, traces and sample states used in the statements -/

/-- Number of times `fn` is executed by one call of `every`: the call is run
on a counter, with the increment as its action. -/
def everyRuns (intervalMillis : Nat) (clk : Millis) (last : Nat) : Nat :=
  (every intervalMillis (fun n => n + 1) clk last 0).2

/-- The timestamps stored into `last` at the firings of successive calls of
`every` on one timer, oldest first; `last` is the timer before the first
call. -/
def fireStamps (intervalMillis : Nat) : Nat → List Millis → List Nat
  | _, [] => []
  | last, clk :: rest =>
    let last' := (every intervalMillis id clk last ()).1
    if everyFires intervalMillis clk last then last' :: fireStamps intervalMillis last' rest
    else fireStamps intervalMillis last' rest

/-- The clock does not run backwards and does not wrap: the readings of
successive calls of `every`, in the order in which they are taken, are
non-decreasing, at least `t` and below `2 ^ 32`.  (For a call that does not
fire, `atStore` stands for a reading that is not taken; it may repeat
`atTest`.) -/
def clockFrom : Nat → List Millis → Bool
  | _, [] => true
  | t, clk :: rest =>
    decide (t ≤ clk.atTest) && decide (clk.atTest ≤ clk.atStore) &&
      decide (clk.atStore < 4294967296) && clockFrom clk.atStore rest

/-- The values of `lastTransmit` after those iterations of a run of `loop`
that handed a frame to the CAN interface, oldest first. -/
def canStamps : List LoopInput → State → List Nat
  | [], _ => []
  | inp :: rest, s =>
    match loop inp s with
    | none => []
    | some s1 =>
      if s1.canOut.length = s.canOut.length then canStamps rest s1
      else s1.lastTransmit :: canStamps rest s1

/-- The values of `lastPrint` after those iterations of a run of `loop` that
wrote a console line, oldest first. -/
def printStamps : List LoopInput → State → List Nat
  | [], _ => []
  | inp :: rest, s =>
    match loop inp s with
    | none => []
    | some s1 =>
      if s1.serialOut.length = s.serialOut.length then printStamps rest s1
      else s1.lastPrint :: printStamps rest s1

/-- All calibration bounds are 16-bit values and no knob has `high = low`. -/
def CalibOk (s : State) : Prop :=
  ∀ i, s.knobValueLow i < 65536 ∧ s.knobValueHigh i < 65536 ∧ s.knobValueHigh i ≠ s.knobValueLow i

/-- The invariant of the data model: every percentage is at most `32768`
(percentages are unsigned, so they are never below `0`). -/
def PercentInv (s : State) : Prop := ∀ i, s.knobPercent i ≤ 32768

instance (s : State) : Decidable (CalibOk s) :=
  inferInstanceAs (Decidable (∀ i, s.knobValueLow i < 65536 ∧ s.knobValueHigh i < 65536 ∧
    s.knobValueHigh i ≠ s.knobValueLow i))

instance (s : State) : Decidable (PercentInv s) :=
  inferInstanceAs (Decidable (∀ i, s.knobPercent i ≤ 32768))

/-- Two states that differ at most in the sampled values. -/
def SameButSamples (s s' : State) : Prop :=
  s'.knobValueLow = s.knobValueLow ∧ s'.knobValueHigh = s.knobValueHigh ∧
  s'.lastPrint = s.lastPrint ∧ s'.lastTransmit = s.lastTransmit ∧
  s'.serialOut = s.serialOut ∧ s'.canOut = s.canOut

/-- Counterexample input of C4: a knob whose bounds are reversed (`low = 100`, `high = 50`) and
whose raw sample equals `high`. -/
def reversedBounds : State :=
  { init with knobValueRaw := fun _ => 50, knobValueLow := fun _ => 100,
              knobValueHigh := fun _ => 50 }

/-- Samples used to exercise the saturation cases: every knob reads `raw`. -/
def withRaw (raw : Nat) : State := { init with knobValueRaw := fun _ => raw }

/-- A state with percentages `0`, `16384` and `32768`. -/
def sampleState : State :=
  { init with knobPercent := fun i => 16384 * i.val }

/-- The computation of `normalizeKnob` carried out over the unbounded integers: the same
steps as `normalize`, without any reduction of the signed 32-bit intermediates. -/
def normalizeExact (raw low high : Nat) : Option Nat :=
  let range : Nat := wrapU16 ((high : Int) - (low : Int))
  if range = 0 then none
  else
    let percent : Int := Int.tdiv (((raw : Int) - (low : Int)) * 32768) (range : Int)
    some (wrapU16 (if percent < 0 then 0 else if percent > 32768 then 32768 else percent))

/-! ## Auxiliary lemmas -/

theorem wrapI32_eq (x : Int) (h1 : -2147483648 ≤ x) (h2 : x < 2147483648) : wrapI32 x = x := by
  unfold wrapI32; omega

theorem wrapU16_eq (n : Nat) (h : n < 65536) : wrapU16 (n : Int) = n := by
  unfold wrapU16; omega

theorem wrapU16_lt (x : Int) : wrapU16 x < 65536 := by
  unfold wrapU16; omega

/-- Truncated division of a non-negative `Nat` numerator is `Nat` division. -/
theorem tdiv_natCast (a b : Nat) : Int.tdiv (a : Int) (b : Int) = ((a / b : Nat) : Int) := by
  rw [Int.tdiv_eq_ediv (Int.ofNat_nonneg a) (Int.ofNat_nonneg b)]
  exact (Int.ofNat_ediv a b).symm

/-- The clamp of `normalizeKnob` on a non-negative quotient. -/
theorem clamp_nonneg (q : Nat) (hq : q < 2147483648) :
    wrapU16 (if wrapI32 (q : Int) < 0 then 0
      else if wrapI32 (q : Int) > (knob100Percent : Int) then (knob100Percent : Int)
      else wrapI32 (q : Int)) = min 32768 q := by
  rw [wrapI32_eq _ (by omega) (by omega)]
  simp only [knob100Percent]
  by_cases hc : q ≤ 32768
  · rw [Nat.min_eq_right hc, if_neg (by omega), if_neg (by omega), wrapU16_eq _ (by omega)]
  · rw [Nat.min_eq_left (by omega), if_neg (by omega), if_pos (by omega)]; rfl

/-- The clamp of `normalizeKnob` on a non-positive quotient. -/
theorem clamp_nonpos (q : Nat) (hq : q < 2147483648) :
    wrapU16 (if wrapI32 (-(q : Int)) < 0 then 0
      else if wrapI32 (-(q : Int)) > (knob100Percent : Int) then (knob100Percent : Int)
      else wrapI32 (-(q : Int))) = 0 := by
  rw [wrapI32_eq _ (by omega) (by omega)]
  simp only [knob100Percent]
  by_cases hc : q = 0
  · subst hc; rfl
  · rw [if_pos (by omega)]; rfl

theorem normalize_of_le (raw low high : Nat) (hraw : raw < 65536)
    (hr : wrapU16 ((high : Int) - (low : Int)) ≠ 0) (h : low ≤ raw) :
    normalize raw low high
      = some (min 32768 ((raw - low) * 32768 / wrapU16 ((high : Int) - (low : Int)))) := by
  unfold normalize
  simp only [hr, if_false]
  have e1 : wrapI32 ((raw : Int) - (low : Int)) = ((raw - low : Nat) : Int) := by
    rw [wrapI32_eq _ (by omega) (by omega)]; omega
  have e2 : wrapI32 (((raw - low : Nat) : Int) * (knob100Percent : Int))
      = (((raw - low) * 32768 : Nat) : Int) := by
    simp only [knob100Percent]
    rw [wrapI32_eq _ (by omega) (by omega)]; push_cast; rfl
  rw [e1, e2, tdiv_natCast]
  have hq : (raw - low) * 32768 / wrapU16 ((high : Int) - (low : Int)) ≤ (raw - low) * 32768 :=
    Nat.div_le_self _ _
  rw [clamp_nonneg _ (by omega)]

theorem normalize_of_lt (raw low high : Nat) (hlow : low < 65536)
    (hr : wrapU16 ((high : Int) - (low : Int)) ≠ 0) (h : raw < low) :
    normalize raw low high = some 0 := by
  unfold normalize
  simp only [hr, if_false]
  have e1 : wrapI32 ((raw : Int) - (low : Int)) = -((low - raw : Nat) : Int) := by
    rw [wrapI32_eq _ (by omega) (by omega)]; omega
  have e2 : wrapI32 (-((low - raw : Nat) : Int) * (knob100Percent : Int))
      = -(((low - raw) * 32768 : Nat) : Int) := by
    simp only [knob100Percent]
    rw [wrapI32_eq _ (by omega) (by omega)]; push_cast; ring
  rw [e1, e2, Int.neg_tdiv, tdiv_natCast]
  have hq : (low - raw) * 32768 / wrapU16 ((high : Int) - (low : Int)) ≤ (low - raw) * 32768 :=
    Nat.div_le_self _ _
  rw [clamp_nonpos _ (by omega)]

theorem wrapU16_sub_of_lt (low high : Nat) (hhigh : high < 65536) (hlt : low < high) :
    wrapU16 ((high : Int) - (low : Int)) = high - low := by
  unfold wrapU16; omega

/-- The exact rescale-and-clamp value, over the integers. -/
theorem normalize_exact (raw low high : Nat) (hraw : raw < 65536) (hhigh : high < 65536)
    (hlt : low < high) :
    ∃ p, normalize raw low high = some p ∧
      (p : Int) = min 32768 (max 0 (Int.tdiv (((raw : Int) - (low : Int)) * 32768)
        ((high : Int) - (low : Int)))) := by
  have hw := wrapU16_sub_of_lt low high hhigh hlt
  have hr : wrapU16 ((high : Int) - (low : Int)) ≠ 0 := by rw [hw]; omega
  have hd : (high : Int) - (low : Int) = ((high - low : Nat) : Int) := by omega
  rcases Nat.lt_or_ge raw low with h | h
  · refine ⟨0, normalize_of_lt raw low high (by omega) hr h, ?_⟩
    have hn : ((raw : Int) - (low : Int)) * 32768 = -(((low - raw) * 32768 : Nat) : Int) := by
      push_cast; omega
    rw [hn, hd, Int.neg_tdiv, tdiv_natCast]
    generalize (low - raw) * 32768 / (high - low) = q
    omega
  · refine ⟨_, normalize_of_le raw low high hraw hr h, ?_⟩
    have hn : ((raw : Int) - (low : Int)) * 32768 = (((raw - low) * 32768 : Nat) : Int) := by
      push_cast; omega
    rw [hw, hn, hd, tdiv_natCast]
    generalize (raw - low) * 32768 / (high - low) = q
    omega

theorem wrapU16_sub_ne_zero (low high : Nat) (hlow : low < 65536) (hhigh : high < 65536)
    (hne : high ≠ low) : wrapU16 ((high : Int) - (low : Int)) ≠ 0 := by
  unfold wrapU16; omega

/-- With a non-zero range the stored percentage never exceeds `32768`. -/
theorem normalize_le (raw low high : Nat) (hraw : raw < 65536) (hlow : low < 65536)
    (hr : wrapU16 ((high : Int) - (low : Int)) ≠ 0) :
    ∃ p, normalize raw low high = some p ∧ p ≤ 32768 := by
  rcases Nat.lt_or_ge raw low with h | h
  · exact ⟨0, normalize_of_lt raw low high hlow hr h, by omega⟩
  · exact ⟨_, normalize_of_le raw low high hraw hr h, Nat.min_le_left _ _⟩

/-- Sampling and normalising one knob. -/
theorem normalizeKnob_readKnob (adc : Int) (i : Fin knobCount) (s : State)
    (hlow : s.knobValueLow i < 65536) (hhigh : s.knobValueHigh i < 65536)
    (hne : s.knobValueHigh i ≠ s.knobValueLow i) :
    ∃ p, normalize (wrapU16 adc) (s.knobValueLow i) (s.knobValueHigh i) = some p ∧ p ≤ 32768 ∧
      normalizeKnob i (readKnob adc i s) =
        some { s with knobValueRaw := Function.update s.knobValueRaw i (wrapU16 adc),
                      knobPercent := Function.update s.knobPercent i p } := by
  obtain ⟨p, hp, hle⟩ := normalize_le (wrapU16 adc) _ _ (wrapU16_lt adc) hlow
    (wrapU16_sub_ne_zero _ _ hlow hhigh hne)
  refine ⟨p, hp, hle, ?_⟩
  simp only [normalizeKnob, readKnob, Function.update_same, hp]

/-- The body of the loop in `readKnobs`, run over a list of knob indices. -/
theorem sample_list (adc : Fin knobCount → Int) (l : List (Fin knobCount)) :
    ∀ s : State, CalibOk s →
      ∃ s', l.foldlM (fun st i => normalizeKnob i (readKnob (adc i) i st)) s = some s' ∧
        (∀ i, i ∈ l → s'.knobValueRaw i = wrapU16 (adc i) ∧
          normalize (wrapU16 (adc i)) (s.knobValueLow i) (s.knobValueHigh i)
            = some (s'.knobPercent i)) ∧
        (∀ i, i ∉ l → s'.knobValueRaw i = s.knobValueRaw i ∧
          s'.knobPercent i = s.knobPercent i) ∧
        SameButSamples s s' := by
  induction l with
  | nil =>
    intro s _
    exact ⟨s, rfl, by simp, by simp, rfl, rfl, rfl, rfl, rfl, rfl⟩
  | cons j t ih =>
    intro s hc
    obtain ⟨p, hp, -, hstep⟩ := normalizeKnob_readKnob (adc j) j s (hc j).1 (hc j).2.1 (hc j).2.2
    obtain ⟨s', hrun, hin, hout, hl, hh, hrest⟩ := ih _ (show CalibOk
      { s with knobValueRaw := Function.update s.knobValueRaw j (wrapU16 (adc j)),
               knobPercent := Function.update s.knobPercent j p } from hc)
    refine ⟨s', ?_, ?_, ?_, hl, hh, hrest⟩
    · rw [List.foldlM_cons, hstep]; exact hrun
    · intro i hi
      by_cases hit : i ∈ t
      · exact hin i hit
      · have hij : i = j := by
          rcases List.mem_cons.1 hi with h | h
          · exact h
          · exact absurd h hit
        subst hij
        obtain ⟨h1, h2⟩ := hout i hit
        refine ⟨?_, ?_⟩
        · rw [h1]; exact Function.update_same i _ s.knobValueRaw
        · rw [h2, hp]
          exact congrArg some (Function.update_same i p s.knobPercent).symm
    · intro i hi
      have hij : i ≠ j := fun h => hi (h ▸ List.mem_cons_self _ _)
      have hit : i ∉ t := fun h => hi (List.mem_cons_of_mem _ h)
      obtain ⟨h1, h2⟩ := hout i hit
      exact ⟨h1.trans (Function.update_noteq hij _ _), h2.trans (Function.update_noteq hij _ _)⟩

/-- What `readKnobs` does when no range is zero: every knob holds its new
sample and the normalisation of that sample under its own bounds. -/
theorem readKnobs_spec (adc : Fin knobCount → Int) (s : State) (hc : CalibOk s) :
    ∃ s', readKnobs adc s = some s' ∧
      (∀ i, s'.knobValueRaw i = wrapU16 (adc i) ∧
        normalize (wrapU16 (adc i)) (s.knobValueLow i) (s.knobValueHigh i)
          = some (s'.knobPercent i)) ∧
      SameButSamples s s' := by
  obtain ⟨s', hrun, hin, -, hsame⟩ := sample_list adc (List.finRange knobCount) s hc
  exact ⟨s', hrun, fun i => hin i (List.mem_finRange i), hsame⟩

/-- Printing touches only the console and its own timer. -/
theorem printKnobs_frame (clk : Millis) (s : State) :
    (printKnobs clk s).knobValueRaw = s.knobValueRaw ∧
    (printKnobs clk s).knobValueLow = s.knobValueLow ∧
    (printKnobs clk s).knobValueHigh = s.knobValueHigh ∧
    (printKnobs clk s).knobPercent = s.knobPercent ∧
    (printKnobs clk s).lastTransmit = s.lastTransmit ∧
    (printKnobs clk s).canOut = s.canOut := by
  unfold printKnobs every
  split <;> exact ⟨rfl, rfl, rfl, rfl, rfl, rfl⟩

/-- Transmitting touches only the CAN output and its own timer. -/
theorem transmitCAN_frame (clk : Millis) (s : State) :
    (transmitCAN clk s).knobValueRaw = s.knobValueRaw ∧
    (transmitCAN clk s).knobValueLow = s.knobValueLow ∧
    (transmitCAN clk s).knobValueHigh = s.knobValueHigh ∧
    (transmitCAN clk s).knobPercent = s.knobPercent ∧
    (transmitCAN clk s).lastPrint = s.lastPrint ∧
    (transmitCAN clk s).serialOut = s.serialOut := by
  unfold transmitCAN every
  split <;> exact ⟨rfl, rfl, rfl, rfl, rfl, rfl⟩

theorem init_calibOk : CalibOk init := by
  intro i; simp [init]

theorem init_percentInv : PercentInv init := by
  intro i; simp [init]

theorem percentInv_printKnobs (clk : Millis) (s : State) (h : PercentInv s) :
    PercentInv (printKnobs clk s) := by
  intro i; rw [(printKnobs_frame clk s).2.2.2.1]; exact h i

theorem percentInv_transmitCAN (clk : Millis) (s : State) (h : PercentInv s) :
    PercentInv (transmitCAN clk s) := by
  intro i; rw [(transmitCAN_frame clk s).2.2.2.1]; exact h i

theorem calibOk_printKnobs (clk : Millis) (s : State) (h : CalibOk s) :
    CalibOk (printKnobs clk s) := by
  intro i; rw [(printKnobs_frame clk s).2.1, (printKnobs_frame clk s).2.2.1]; exact h i

theorem calibOk_transmitCAN (clk : Millis) (s : State) (h : CalibOk s) :
    CalibOk (transmitCAN clk s) := by
  intro i; rw [(transmitCAN_frame clk s).2.1, (transmitCAN_frame clk s).2.2.1]; exact h i

/-- One iteration of `loop` on a state with usable calibration. -/
theorem loop_spec (inp : LoopInput) (s : State) (hc : CalibOk s) :
    ∃ s1, readKnobs inp.adc s = some s1 ∧ SameButSamples s s1 ∧ CalibOk s1 ∧ PercentInv s1 ∧
      (∀ i, s1.knobValueRaw i = wrapU16 (inp.adc i) ∧
        normalize (wrapU16 (inp.adc i)) (s.knobValueLow i) (s.knobValueHigh i)
          = some (s1.knobPercent i)) ∧
      loop inp s = some (transmitCAN inp.canClk (printKnobs inp.printClk s1)) := by
  obtain ⟨s1, hrd, hs1, hsame⟩ := readKnobs_spec inp.adc s hc
  refine ⟨s1, hrd, hsame, ?_, ?_, hs1, by simp only [loop, hrd]⟩
  · intro i; rw [hsame.1, hsame.2.1]; exact hc i
  · intro i
    obtain ⟨p, hp, hle⟩ := normalize_le (wrapU16 (inp.adc i)) (s.knobValueLow i)
      (s.knobValueHigh i) (wrapU16_lt _) (hc i).1
      (wrapU16_sub_ne_zero _ _ (hc i).1 (hc i).2.1 (hc i).2.2)
    have := (hs1 i).2
    rw [hp] at this
    exact (Option.some.inj this) ▸ hle

/-- Any number of iterations of `loop` on a state with usable calibration. -/
theorem runLoop_spec (inputs : List LoopInput) :
    ∀ s : State, CalibOk s → PercentInv s →
      ∃ s', runLoop inputs s = some s' ∧ PercentInv s' ∧ CalibOk s' := by
  induction inputs with
  | nil => intro s hc hi; exact ⟨s, rfl, hi, hc⟩
  | cons inp rest ih =>
    intro s hc _
    obtain ⟨s1, -, -, hcal, hinv, -, hloop⟩ := loop_spec inp s hc
    obtain ⟨s', hrun, hinv', hcal'⟩ := ih (transmitCAN inp.canClk (printKnobs inp.printClk s1))
      (calibOk_transmitCAN _ _ (calibOk_printKnobs _ _ hcal))
      (percentInv_transmitCAN _ _ (percentInv_printKnobs _ _ hinv))
    exact ⟨s', by simp only [runLoop, hloop, hrun], hinv', hcal'⟩

theorem normalizeKnob_of_normalize (i : Fin knobCount) (s : State) (p : Nat)
    (h : normalize (s.knobValueRaw i) (s.knobValueLow i) (s.knobValueHigh i) = some p) :
    normalizeKnob i s = some { s with knobPercent := Function.update s.knobPercent i p } := by
  simp only [normalizeKnob, h]

theorem normalize_of_gt_high (raw low high : Nat) (hraw : raw < 65536) (hlt : low < high)
    (h : high ≤ raw) : normalize raw low high = some 32768 := by
  have hw := wrapU16_sub_of_lt low high (by omega) hlt
  rw [normalize_of_le raw low high hraw (by rw [hw]; omega) (by omega), hw]
  have hq : 32768 ≤ (raw - low) * 32768 / (high - low) := by
    rw [Nat.le_div_iff_mul_le (by omega)]
    calc 32768 * (high - low) = (high - low) * 32768 := Nat.mul_comm _ _
      _ ≤ (raw - low) * 32768 := Nat.mul_le_mul_right _ (by omega)
  rw [Nat.min_eq_left hq]

theorem elapsed_eq_sub (now last : Nat) (hle : last ≤ now) (hnow : now < 4294967296) :
    elapsed now last = now - last := by
  unfold elapsed wrapU32; omega

theorem wrapU32_eq (n : Nat) (h : n < 4294967296) : wrapU32 (n : Int) = n := by
  unfold wrapU32; omega

theorem every_of_fires {σ : Type} (I : Nat) (fn : σ → σ) (clk : Millis) (last : Nat) (s : σ)
    (h : I < elapsed clk.atTest last) :
    every I fn clk last s = (wrapU32 (clk.atStore : Int), fn s) := by
  simp [every, everyFires, h]

theorem every_of_idle {σ : Type} (I : Nat) (fn : σ → σ) (clk : Millis) (last : Nat) (s : σ)
    (h : elapsed clk.atTest last ≤ I) :
    every I fn clk last s = (last, s) := by
  simp [every, everyFires, Nat.not_lt.2 h]

/-- The new timer value does not depend on the action or on the program state. -/
theorem every_fst {σ : Type} (I : Nat) (fn : σ → σ) (clk : Millis) (last : Nat) (s : σ) :
    (every I fn clk last s).1 = (every I id clk last ()).1 := by
  unfold every; split <;> rfl

/-- After a firing at a time not before `last`, every later firing is more than `I` after
`last`. -/
theorem fireStamps_after (I : Nat) (cs : List Millis) :
    ∀ last t : Nat, last ≤ t → clockFrom t cs = true →
      ∀ b ∈ fireStamps I last cs, last + I < b := by
  induction cs with
  | nil => intro last t _ _ b hb; simp [fireStamps] at hb
  | cons c rest ih =>
    intro last t hlt hck b hb
    simp only [clockFrom, Bool.and_eq_true, decide_eq_true_eq] at hck
    obtain ⟨⟨⟨h1, h2⟩, h3⟩, h4⟩ := hck
    by_cases hf : I < elapsed c.atTest last
    · have he := elapsed_eq_sub c.atTest last (by omega) (by omega)
      have hst : (every I id c last ()).1 = c.atStore := by
        rw [every_of_fires I id c last () hf]; exact wrapU32_eq _ h3
      have hfire : everyFires I c last = true := by simp [everyFires, hf]
      simp only [fireStamps, hst, hfire, if_true, List.mem_cons] at hb
      rcases hb with rfl | hb
      · omega
      · have := ih c.atStore c.atStore (Nat.le_refl _) h4 b hb
        omega
    · have hst : (every I id c last ()).1 = last := by
        rw [every_of_idle I id c last () (by omega)]
      have hfire : everyFires I c last = false := by simp [everyFires, hf]
      simp only [fireStamps, hst, hfire] at hb
      exact ih last c.atStore (by omega) h4 b hb

/-- Successive firings of one timer are more than `I` apart. -/
theorem fireStamps_spaced (I : Nat) (cs : List Millis) :
    ∀ last t : Nat, clockFrom t cs = true →
      List.Pairwise (fun a b => a + I < b) (fireStamps I last cs) := by
  induction cs with
  | nil => intro last t _; simp [fireStamps]
  | cons c rest ih =>
    intro last t hck
    have hck' := hck
    simp only [clockFrom, Bool.and_eq_true, decide_eq_true_eq] at hck'
    obtain ⟨⟨⟨-, -⟩, h3⟩, h4⟩ := hck'
    by_cases hfire : everyFires I c last = true
    · have hf : I < elapsed c.atTest last := by simpa [everyFires] using hfire
      have hst : (every I id c last ()).1 = c.atStore := by
        rw [every_of_fires I id c last () hf]; exact wrapU32_eq _ h3
      simp only [fireStamps, hst, hfire, if_true, List.pairwise_cons]
      exact ⟨fireStamps_after I rest c.atStore c.atStore (Nat.le_refl _) h4, ih _ _ h4⟩
    · simp only [fireStamps, hfire]
      exact ih _ _ h4

theorem transmitCAN_of_fires (clk : Millis) (s : State) (h : everyFires 100 clk s.lastTransmit = true) :
    transmitCAN clk s
      = { s with canOut := s.canOut ++ [canMessage s], lastTransmit := wrapU32 (clk.atStore : Int) } := by
  simp [transmitCAN, every, h, transmitBody]

theorem transmitCAN_of_idle (clk : Millis) (s : State) (h : everyFires 100 clk s.lastTransmit = false) :
    transmitCAN clk s = s := by
  simp [transmitCAN, every, h]

theorem printKnobs_of_fires (clk : Millis) (s : State) (h : everyFires 200 clk s.lastPrint = true) :
    printKnobs clk s = { printBody s with lastPrint := wrapU32 (clk.atStore : Int) } := by
  simp [printKnobs, every, h]

theorem printKnobs_of_idle (clk : Millis) (s : State) (h : everyFires 200 clk s.lastPrint = false) :
    printKnobs clk s = s := by
  simp [printKnobs, every, h]

/-- The two timers and the two outputs across one iteration of `loop`. -/
theorem loop_timers (inp : LoopInput) (s : State) (hc : CalibOk s) :
    ∃ s', loop inp s = some s' ∧ CalibOk s' ∧
      s'.lastTransmit = (every 100 id inp.canClk s.lastTransmit ()).1 ∧
      (s'.canOut.length = s.canOut.length ↔ everyFires 100 inp.canClk s.lastTransmit = false) ∧
      s'.lastPrint = (every 200 id inp.printClk s.lastPrint ()).1 ∧
      (s'.serialOut.length = s.serialOut.length ↔ everyFires 200 inp.printClk s.lastPrint = false) := by
  obtain ⟨s1, -, ⟨-, -, hlp, hlt, hso, hco⟩, hcal, -, -, hloop⟩ := loop_spec inp s hc
  obtain ⟨-, -, -, -, hplt, hpco⟩ := printKnobs_frame inp.printClk s1
  obtain ⟨-, -, -, -, htlp, htso⟩ := transmitCAN_frame inp.canClk (printKnobs inp.printClk s1)
  refine ⟨_, hloop, calibOk_transmitCAN _ _ (calibOk_printKnobs _ _ hcal), ?_, ?_, ?_, ?_⟩
  · rw [← hlt, ← hplt]; exact every_fst 100 transmitBody _ _ _
  · rw [← hlt, ← hplt, ← hco, ← hpco]
    cases hf : everyFires 100 inp.canClk (printKnobs inp.printClk s1).lastTransmit
    · rw [transmitCAN_of_idle _ _ hf]; simp
    · rw [transmitCAN_of_fires _ _ hf]; simp
  · rw [htlp, ← hlp]; exact every_fst 200 printBody _ _ _
  · rw [htso, ← hlp, ← hso]
    cases hf : everyFires 200 inp.printClk s1.lastPrint
    · rw [printKnobs_of_idle _ _ hf]; simp
    · rw [printKnobs_of_fires _ _ hf]; simp [printBody]

/-- The frames sent by a run of `loop` are stamped like the firings of a `100` ms timer. -/
theorem canStamps_eq (inputs : List LoopInput) :
    ∀ s : State, CalibOk s →
      canStamps inputs s = fireStamps 100 s.lastTransmit (inputs.map (fun inp => inp.canClk)) := by
  induction inputs with
  | nil => intro s _; rfl
  | cons inp rest ih =>
    intro s hc
    obtain ⟨s', hloop, hcal, hlt, hco, -, -⟩ := loop_timers inp s hc
    simp only [canStamps, hloop, List.map_cons, fireStamps, ih s' hcal, hco, ← hlt]
    cases everyFires 100 inp.canClk s.lastTransmit <;> simp

/-- The lines written by a run of `loop` are stamped like the firings of a `200` ms timer. -/
theorem printStamps_eq (inputs : List LoopInput) :
    ∀ s : State, CalibOk s →
      printStamps inputs s = fireStamps 200 s.lastPrint (inputs.map (fun inp => inp.printClk)) := by
  induction inputs with
  | nil => intro s _; rfl
  | cons inp rest ih =>
    intro s hc
    obtain ⟨s', hloop, hcal, -, -, hlp, hso⟩ := loop_timers inp s hc
    simp only [printStamps, hloop, List.map_cons, fireStamps, ih s' hcal, hso, ← hlp]
    cases everyFires 200 inp.printClk s.lastPrint <;> simp

theorem percentToByte_eq (p : Nat) (h : p ≤ 32768) : percentToByte p = p * 255 / 32768 := by
  unfold percentToByte
  have e1 : wrapI32 ((p : Int) * 255) = ((p * 255 : Nat) : Int) := by
    rw [wrapI32_eq _ (by omega) (by omega)]; push_cast; rfl
  have e2 : Int.tdiv ((p * 255 : Nat) : Int) 32768 = ((p * 255 / 32768 : Nat) : Int) :=
    tdiv_natCast (p * 255) 32768
  rw [e1, e2, wrapI32_eq _ (by omega) (by omega)]
  unfold wrapU8
  omega

theorem canMessage_data (s : State) :
    (canMessage s).data =
      [percentToByte (s.knobPercent ⟨0, by decide⟩), percentToByte (s.knobPercent ⟨1, by decide⟩),
        percentToByte (s.knobPercent ⟨2, by decide⟩), 0, 0, 0, 0, 0] := rfl

/-- The message depends only on the percentages. -/
theorem canMessage_congr (s t : State) (h : s.knobPercent = t.knobPercent) :
    canMessage s = canMessage t := by
  unfold canMessage; rw [h]

/-- One iteration of `loop`: the sampled state `s1` after `readKnobs`, and what the iteration
leaves in the percentages, the bounds, the timer of `transmitCAN` and the two outputs. -/
theorem loop_outputs (inp : LoopInput) (s : State) (hc : CalibOk s) :
    ∃ s1 s', readKnobs inp.adc s = some s1 ∧ loop inp s = some s' ∧
      (∀ i, s1.knobValueRaw i = wrapU16 (inp.adc i) ∧
        normalize (wrapU16 (inp.adc i)) (s.knobValueLow i) (s.knobValueHigh i)
          = some (s1.knobPercent i)) ∧
      PercentInv s1 ∧ CalibOk s' ∧
      s'.knobValueRaw = s1.knobValueRaw ∧ s'.knobPercent = s1.knobPercent ∧
      s'.knobValueLow = s.knobValueLow ∧ s'.knobValueHigh = s.knobValueHigh ∧
      s'.lastTransmit = (every 100 id inp.canClk s.lastTransmit ()).1 ∧
      s'.lastPrint = (every 200 id inp.printClk s.lastPrint ()).1 ∧
      s'.canOut = (if everyFires 100 inp.canClk s.lastTransmit = true
        then s.canOut ++ [canMessage s1] else s.canOut) ∧
      (everyFires 200 inp.printClk s.lastPrint = false → s'.serialOut = s.serialOut) := by
  obtain ⟨s1, hrd, ⟨hl, hh, hlp, hlt, hso, hco⟩, hcal, hinv, hs1, hloop⟩ := loop_spec inp s hc
  obtain ⟨hpr, hpl, hph, hpp, hplt, hpco⟩ := printKnobs_frame inp.printClk s1
  obtain ⟨htr, htl, hth, htp, htlp, htso⟩ :=
    transmitCAN_frame inp.canClk (printKnobs inp.printClk s1)
  refine ⟨s1, _, hrd, hloop, hs1, hinv, calibOk_transmitCAN _ _ (calibOk_printKnobs _ _ hcal),
    htr.trans hpr, htp.trans hpp, (htl.trans hpl).trans hl, (hth.trans hph).trans hh,
    ?_, ?_, ?_, ?_⟩
  · rw [← hlt, ← hplt]; exact every_fst 100 transmitBody _ _ _
  · rw [htlp, ← hlp]; exact every_fst 200 printBody _ _ _
  · rw [← hlt, ← hplt, ← hco, ← hpco]
    cases hf : everyFires 100 inp.canClk (printKnobs inp.printClk s1).lastTransmit
    · rw [transmitCAN_of_idle _ _ hf]; simp
    · rw [transmitCAN_of_fires _ _ hf, canMessage_congr _ _ hpp]; simp
  · intro hf
    rw [htso, ← hso]
    rw [← hlp] at hf
    rw [printKnobs_of_idle _ _ hf]

/-- No operation of `loop` writes the calibration bounds. -/
theorem runLoop_bounds (inputs : List LoopInput) :
    ∀ s : State, CalibOk s →
      ∃ s', runLoop inputs s = some s' ∧ s'.knobValueLow = s.knobValueLow ∧
        s'.knobValueHigh = s.knobValueHigh := by
  induction inputs with
  | nil => intro s _; exact ⟨s, rfl, rfl, rfl⟩
  | cons inp rest ih =>
    intro s hc
    obtain ⟨s1, s', -, hloop, -, -, hcal, -, -, hl, hh, -⟩ := loop_outputs inp s hc
    obtain ⟨t, hrun, htl, hth⟩ := ih s' hcal
    exact ⟨t, by simp only [runLoop, hloop, hrun], htl.trans hl, hth.trans hh⟩

theorem elapsed_zero_le (t : Nat) : elapsed t 0 ≤ t := by
  unfold elapsed wrapU32; omega

/-- While the clock readings of `transmitCAN` stay at or below `100` and its timer is `0`, a
run of `loop` sends nothing; likewise for `printKnobs` and `200`. -/
theorem runLoop_quiet (inputs : List LoopInput) :
    ∀ s : State, CalibOk s →
      ∃ s', runLoop inputs s = some s' ∧
        (s.lastTransmit = 0 → (∀ inp ∈ inputs, inp.canClk.atTest ≤ 100) →
          s'.canOut = s.canOut ∧ s'.lastTransmit = 0) ∧
        (s.lastPrint = 0 → (∀ inp ∈ inputs, inp.printClk.atTest ≤ 200) →
          s'.serialOut = s.serialOut ∧ s'.lastPrint = 0) := by
  induction inputs with
  | nil => intro s _; exact ⟨s, rfl, fun h _ => ⟨rfl, h⟩, fun h _ => ⟨rfl, h⟩⟩
  | cons inp rest ih =>
    intro s hc
    obtain ⟨s1, s', -, hloop, -, -, hcal, -, -, -, -, hlt, hlp, hco, hso⟩ := loop_outputs inp s hc
    obtain ⟨t, hrun, hcan, hprint⟩ := ih s' hcal
    refine ⟨t, by simp only [runLoop, hloop, hrun], fun h0 hall => ?_, fun h0 hall => ?_⟩
    · have hidle : elapsed inp.canClk.atTest s.lastTransmit ≤ 100 := by
        rw [h0]
        exact Nat.le_trans (elapsed_zero_le _) (hall inp (List.mem_cons_self _ _))
      have hf : everyFires 100 inp.canClk s.lastTransmit = false := by
        simp [everyFires, hidle]
      rw [every_of_idle 100 id _ _ () hidle] at hlt
      rw [hf] at hco
      obtain ⟨h1, h2⟩ := hcan (hlt.trans h0) (fun i hi => hall i (List.mem_cons_of_mem _ hi))
      exact ⟨h1.trans (by simpa using hco), h2⟩
    · have hidle : elapsed inp.printClk.atTest s.lastPrint ≤ 200 := by
        rw [h0]
        exact Nat.le_trans (elapsed_zero_le _) (hall inp (List.mem_cons_self _ _))
      have hf : everyFires 200 inp.printClk s.lastPrint = false := by
        simp [everyFires, hidle]
      rw [every_of_idle 200 id _ _ () hidle] at hlp
      obtain ⟨h1, h2⟩ := hprint (hlp.trans h0) (fun i hi => hall i (List.mem_cons_of_mem _ hi))
      exact ⟨h1.trans (hso hf), h2⟩

/-- Calls whose clock reading is at most `I` leave a timer that holds `0` alone. -/
theorem fireStamps_quiet (I : Nat) (early : List Millis) (later : List Millis)
    (h : ∀ c ∈ early, c.atTest ≤ I) :
    fireStamps I 0 (early ++ later) = fireStamps I 0 later := by
  induction early with
  | nil => rfl
  | cons c rest ih =>
    have hidle : elapsed c.atTest 0 ≤ I :=
      Nat.le_trans (elapsed_zero_le _) (h c (List.mem_cons_self _ _))
    have hf : everyFires I c 0 = false := by simp [everyFires, hidle]
    simp only [List.cons_append, fireStamps, hf, every_of_idle I id c 0 () hidle]
    exact ih (fun i hi => h i (List.mem_cons_of_mem _ hi))

/-- The payload bytes of the message built from a state that satisfies the invariant. -/
theorem canMessage_bytes (s : State) (hinv : PercentInv s) (i : Fin knobCount) :
    (canMessage s).data[i.val]? = some (s.knobPercent i * 255 / 32768) := by
  have hi : i = ⟨0, by decide⟩ ∨ i = ⟨1, by decide⟩ ∨ i = ⟨2, by decide⟩ := by
    revert i; decide
  rw [canMessage_data]
  rcases hi with rfl | rfl | rfl
  · rw [← percentToByte_eq _ (hinv _)]; simp
  · rw [← percentToByte_eq _ (hinv _)]; simp
  · rw [← percentToByte_eq _ (hinv _)]; simp

theorem normalize_eq_none_iff (raw low high : Nat) (hraw : raw < 65536) (hlow : low < 65536)
    (hhigh : high < 65536) : normalize raw low high = none ↔ high = low := by
  constructor
  · intro h
    by_contra hne
    obtain ⟨p, hp, -⟩ := normalize_le raw low high hraw hlow
      (wrapU16_sub_ne_zero low high hlow hhigh hne)
    rw [hp] at h
    exact Option.noConfusion h
  · intro h
    subst h
    simp [normalize, wrapU16]

/-- The magnitude of a truncated quotient by a positive divisor is at most that of the
numerator. -/
theorem tdiv_bounds (n : Int) (r : Nat) (B : Int) (hlo : -B ≤ n) (hhi : n ≤ B) :
    -B ≤ Int.tdiv n (r : Int) ∧ Int.tdiv n (r : Int) ≤ B := by
  rcases Int.lt_or_le n 0 with hn | hn
  · obtain ⟨m, hm⟩ : ∃ m : Nat, n = -(m : Int) := ⟨(-n).toNat, by omega⟩
    subst hm
    rw [Int.neg_tdiv, tdiv_natCast]
    have hq : m / r ≤ m := Nat.div_le_self _ _
    generalize m / r = q at hq ⊢
    omega
  · obtain ⟨m, hm⟩ : ∃ m : Nat, n = (m : Int) := ⟨n.toNat, by omega⟩
    subst hm
    rw [tdiv_natCast]
    have hq : m / r ≤ m := Nat.div_le_self _ _
    generalize m / r = q at hq ⊢
    omega

/-! ## The verified properties -/

/-- C1: for 16-bit `raw`, `low`, `high` with `low < high`, `normalizeKnob` succeeds and
stores into `knobPercent[i]` the value `min(32768, max(0, q))`, where `q` is
`(raw - low) * 32768 / (high - low)` over the integers with the quotient truncated toward
zero; nothing else changes. -/
theorem normalizeKnob_rescale_clamp (s : State) (i : Fin knobCount)
    (hraw : s.knobValueRaw i < 65536)
    (hhigh : s.knobValueHigh i < 65536) (hlt : s.knobValueLow i < s.knobValueHigh i) :
    ∃ p : Nat, normalizeKnob i s = some { s with knobPercent := Function.update s.knobPercent i p } ∧
      (p : Int) = min 32768 (max 0 (Int.tdiv
        (((s.knobValueRaw i : Int) - (s.knobValueLow i : Int)) * 32768)
        ((s.knobValueHigh i : Int) - (s.knobValueLow i : Int)))) := by
  obtain ⟨p, hp, hv⟩ := normalize_exact _ _ _ hraw hhigh hlt
  exact ⟨p, by simp only [normalizeKnob, hp], hv⟩

/-- With the shipped bounds `30` and `4060`, a sample of `2045` stores the clamped quotient of
`(2045 - 30) * 32768` by `4060 - 30`. -/
theorem normalizeKnob_rescale_clamp_witness :
    ∃ p : Nat, normalizeKnob ⟨0, by decide⟩ (withRaw 2045)
        = some { withRaw 2045 with
            knobPercent := Function.update (withRaw 2045).knobPercent ⟨0, by decide⟩ p } ∧
      (p : Int) = min 32768 (max 0 (Int.tdiv (((2045 : Int) - 30) * 32768) ((4060 : Int) - 30))) :=
  normalizeKnob_rescale_clamp (withRaw 2045) ⟨0, by decide⟩ (by decide) (by decide) (by decide)

/-- C2: every knob's percentage is always in `[0, 32768]`.  The bound holds in the initial
state, and from any state in which it holds and in which every calibration pair is 16-bit with
`high ≠ low`, one iteration of `loop` with arbitrary ADC samples and clock readings succeeds and
the bound holds after `readKnobs`, after `printKnobs` and after `transmitCAN`; hence it holds
after any number of iterations. -/
theorem percent_always_in_range (s : State) (hc : CalibOk s) (hi : PercentInv s)
    (inp : LoopInput) (inputs : List LoopInput) :
    PercentInv init ∧
    (∃ s1, readKnobs inp.adc s = some s1 ∧ PercentInv s1 ∧
      PercentInv (printKnobs inp.printClk s1) ∧
      loop inp s = some (transmitCAN inp.canClk (printKnobs inp.printClk s1)) ∧
      PercentInv (transmitCAN inp.canClk (printKnobs inp.printClk s1))) ∧
    (∃ s', runLoop inputs s = some s' ∧ PercentInv s') := by
  obtain ⟨s1, h1, -, -, h2, -, h4⟩ := loop_spec inp s hc
  obtain ⟨s', h6, h7, -⟩ := runLoop_spec inputs s hc hi
  exact ⟨init_percentInv, ⟨s1, h1, h2, percentInv_printKnobs _ _ h2, h4,
    percentInv_transmitCAN _ _ (percentInv_printKnobs _ _ h2)⟩, ⟨s', h6, h7⟩⟩

/-- Two loop iterations from the initial state, with samples below, inside and above the
calibrated range. -/
theorem percent_always_in_range_witness :
    CalibOk init ∧ PercentInv init ∧ ∃ s', runLoop [⟨fun _ => 2045, ⟨201, 201⟩, ⟨201, 202⟩⟩, ⟨fun i => 4095 * i.val, ⟨300, 300⟩, ⟨300, 300⟩⟩]
      init = some s' ∧ PercentInv s' :=
  ⟨init_calibOk, init_percentInv, (percent_always_in_range init init_calibOk init_percentInv
    ⟨fun _ => 2045, ⟨201, 201⟩, ⟨201, 202⟩⟩
    [⟨fun _ => 2045, ⟨201, 201⟩, ⟨201, 202⟩⟩, ⟨fun i => 4095 * i.val, ⟨300, 300⟩, ⟨300, 300⟩⟩]).2.2⟩

/-- C3: out-of-range samples saturate.  For 16-bit values with `low < high`, a raw sample below
`low` makes `normalizeKnob` store exactly `0`, and a raw sample above `high` makes it store
exactly `32768`. -/
theorem normalizeKnob_saturates (s : State) (i : Fin knobCount)
    (hraw : s.knobValueRaw i < 65536) (hhigh : s.knobValueHigh i < 65536)
    (hlt : s.knobValueLow i < s.knobValueHigh i) :
    (s.knobValueRaw i < s.knobValueLow i →
      normalizeKnob i s = some { s with knobPercent := Function.update s.knobPercent i 0 }) ∧
    (s.knobValueHigh i < s.knobValueRaw i →
      normalizeKnob i s = some { s with knobPercent := Function.update s.knobPercent i 32768 }) := by
  refine ⟨fun h => ?_, fun h => ?_⟩
  · exact normalizeKnob_of_normalize i s 0
      (normalize_of_lt _ _ _ (by omega) (wrapU16_sub_ne_zero _ _ (by omega) hhigh (by omega)) h)
  · exact normalizeKnob_of_normalize i s 32768 (normalize_of_gt_high _ _ _ hraw hlt (by omega))

/-- With the shipped bounds `30` and `4060`, a sample of `10` stores `0` and a sample of `4090`
stores `32768`. -/
theorem normalizeKnob_saturates_witness :
    normalizeKnob ⟨0, by decide⟩ (withRaw 10)
      = some { withRaw 10 with
          knobPercent := Function.update (withRaw 10).knobPercent ⟨0, by decide⟩ 0 } ∧
    normalizeKnob ⟨0, by decide⟩ (withRaw 4090)
      = some { withRaw 4090 with
          knobPercent := Function.update (withRaw 4090).knobPercent ⟨0, by decide⟩ 32768 } :=
  ⟨(normalizeKnob_saturates (withRaw 10) ⟨0, by decide⟩ (by decide) (by decide) (by decide)).1
      (by decide),
   (normalizeKnob_saturates (withRaw 4090) ⟨0, by decide⟩ (by decide) (by decide) (by decide)).2
      (by decide)⟩

/-- C4 fails as stated: with `low = 100` and `high = 50` (16-bit, `high ≠ low`) and the raw
sample equal to `high`, `normalizeKnob` stores `0`, not `32768`. -/
theorem normalizeKnob_high_reversed_counterexample :
    reversedBounds.knobValueLow ⟨0, by decide⟩ < 65536 ∧
    reversedBounds.knobValueHigh ⟨0, by decide⟩ < 65536 ∧
    reversedBounds.knobValueHigh ⟨0, by decide⟩ ≠ reversedBounds.knobValueLow ⟨0, by decide⟩ ∧
    reversedBounds.knobValueRaw ⟨0, by decide⟩ = reversedBounds.knobValueHigh ⟨0, by decide⟩ ∧
    (normalizeKnob ⟨0, by decide⟩ reversedBounds).map (fun t => t.knobPercent ⟨0, by decide⟩)
      = some 0 ∧
    (normalizeKnob ⟨0, by decide⟩ reversedBounds).map (fun t => t.knobPercent ⟨0, by decide⟩)
      ≠ some 32768 := by
  decide

/-- C4 (amended): for 16-bit bounds with `high ≠ low`, a raw sample equal to `low` makes
`normalizeKnob` store exactly `0`; a raw sample equal to `high` makes it store exactly `32768`
when `low < high`, and `0` when `high < low`. -/
theorem normalizeKnob_endpoints (s : State) (i : Fin knobCount)
    (hlow : s.knobValueLow i < 65536) (hhigh : s.knobValueHigh i < 65536)
    (hne : s.knobValueHigh i ≠ s.knobValueLow i) :
    (s.knobValueRaw i = s.knobValueLow i →
      normalizeKnob i s = some { s with knobPercent := Function.update s.knobPercent i 0 }) ∧
    (s.knobValueRaw i = s.knobValueHigh i → s.knobValueLow i < s.knobValueHigh i →
      normalizeKnob i s = some { s with knobPercent := Function.update s.knobPercent i 32768 }) ∧
    (s.knobValueRaw i = s.knobValueHigh i → s.knobValueHigh i < s.knobValueLow i →
      normalizeKnob i s = some { s with knobPercent := Function.update s.knobPercent i 0 }) := by
  have hr := wrapU16_sub_ne_zero _ _ hlow hhigh hne
  refine ⟨fun h => ?_, fun h hlt => ?_, fun h hlt => ?_⟩
  · apply normalizeKnob_of_normalize
    rw [normalize_of_le _ _ _ (by omega) hr (by omega), h, Nat.sub_self, Nat.zero_mul,
      Nat.zero_div, Nat.min_eq_right (Nat.zero_le _)]
  · exact normalizeKnob_of_normalize i s 32768
      (normalize_of_gt_high _ _ _ (by omega) hlt (by omega))
  · exact normalizeKnob_of_normalize i s 0 (normalize_of_lt _ _ _ hlow hr (by omega))

/-- With the shipped bounds, a sample of `30` stores `0` and a sample of `4060` stores `32768`;
with the reversed bounds `100` and `50`, a sample of `50` stores `0`. -/
theorem normalizeKnob_endpoints_witness :
    normalizeKnob ⟨0, by decide⟩ (withRaw 30)
      = some { withRaw 30 with
          knobPercent := Function.update (withRaw 30).knobPercent ⟨0, by decide⟩ 0 } ∧
    normalizeKnob ⟨0, by decide⟩ (withRaw 4060)
      = some { withRaw 4060 with
          knobPercent := Function.update (withRaw 4060).knobPercent ⟨0, by decide⟩ 32768 } ∧
    normalizeKnob ⟨0, by decide⟩ reversedBounds
      = some { reversedBounds with
          knobPercent := Function.update reversedBounds.knobPercent ⟨0, by decide⟩ 0 } :=
  ⟨(normalizeKnob_endpoints (withRaw 30) ⟨0, by decide⟩ (by decide) (by decide) (by decide)).1
      (by decide),
   (normalizeKnob_endpoints (withRaw 4060) ⟨0, by decide⟩ (by decide) (by decide)
      (by decide)).2.1 (by decide) (by decide),
   (normalizeKnob_endpoints reversedBounds ⟨0, by decide⟩ (by decide) (by decide)
      (by decide)).2.2 (by decide) (by decide)⟩

/-- C5: normalisation is monotone inside the calibrated range.  For 16-bit `low < high` and raw
values with `low ≤ r1 ≤ r2 ≤ high`, both normalisations succeed and the value stored for `r1` is
at most the value stored for `r2`. -/
theorem normalize_monotone (low high r1 r2 : Nat) (hhigh : high < 65536) (hlt : low < high)
    (h1 : low ≤ r1) (h12 : r1 ≤ r2) (h2 : r2 ≤ high) :
    ∃ p1 p2, normalize r1 low high = some p1 ∧ normalize r2 low high = some p2 ∧ p1 ≤ p2 := by
  have hw := wrapU16_sub_of_lt low high hhigh hlt
  have hr : wrapU16 ((high : Int) - (low : Int)) ≠ 0 := by rw [hw]; omega
  refine ⟨_, _, normalize_of_le r1 low high (by omega) hr h1,
    normalize_of_le r2 low high (by omega) hr (by omega), ?_⟩
  have hq : (r1 - low) * 32768 / wrapU16 ((high : Int) - (low : Int))
      ≤ (r2 - low) * 32768 / wrapU16 ((high : Int) - (low : Int)) :=
    Nat.div_le_div_right (Nat.mul_le_mul_right _ (by omega))
  omega

/-- With the shipped bounds, the samples `1000 ≤ 3000` normalise to values in the same order. -/
theorem normalize_monotone_witness :
    ∃ p1 p2, normalize 1000 30 4060 = some p1 ∧ normalize 3000 30 4060 = some p2 ∧ p1 ≤ p2 :=
  normalize_monotone 30 4060 1000 3000 (by decide) (by decide) (by decide) (by decide) (by decide)

/-- C6: one call of `every(I, fn)`.  If the elapsed time (the `unsigned long` difference
`now - last`, which is the plain difference when `last ≤ now`) exceeds `I`, the stored
timestamp becomes the current clock reading and `fn` runs exactly once; otherwise `fn` does
not run and the stored timestamp is unchanged. -/
theorem every_one_call {σ : Type} (I : Nat) (fn : σ → σ) (clk : Millis) (last : Nat) (s : σ)
    (hclk : clk.atStore < 4294967296) :
    (I < elapsed clk.atTest last →
      every I fn clk last s = (clk.atStore, fn s) ∧ everyRuns I clk last = 1) ∧
    (elapsed clk.atTest last ≤ I →
      every I fn clk last s = (last, s) ∧ everyRuns I clk last = 0) ∧
    (last ≤ clk.atTest → clk.atTest < 4294967296 →
      elapsed clk.atTest last = clk.atTest - last) := by
  refine ⟨fun h => ⟨?_, ?_⟩, fun h => ⟨?_, ?_⟩, fun h1 h2 => elapsed_eq_sub _ _ h1 h2⟩
  · rw [every_of_fires I fn clk last s h, wrapU32_eq _ hclk]
  · rw [everyRuns, every_of_fires I _ clk last 0 h]
  · exact every_of_idle I fn clk last s h
  · rw [everyRuns, every_of_idle I _ clk last 0 h]

/-- With `I = 100` and `last = 50`: a call at time `151` fires and stores `152`, the reading of
the second call of `millis()`. -/
theorem every_one_call_witness :
    every 100 (fun n : Nat => n + 1) ⟨151, 152⟩ 50 7 = (152, 8) ∧ everyRuns 100 ⟨151, 152⟩ 50 = 1 :=
  (every_one_call 100 (fun n : Nat => n + 1) ⟨151, 152⟩ 50 7 (by decide)).1 (by decide)

/-- C7: the throttled action fires at most once per `I`-millisecond window.  For successive
calls of `every(I, fn)` on one timer with non-decreasing clock readings below `2 ^ 32`, the
timestamps recorded at any two firings differ by more than `I`; in particular, over any run of
`loop`, the timestamps of the CAN frames are at least `100` apart and those of the console
lines at least `200` apart. -/
theorem every_firings_spaced (I last : Nat) (cs : List Millis) (hclk : clockFrom 0 cs = true)
    (inputs : List LoopInput) (s : State) (hc : CalibOk s)
    (hcan : clockFrom 0 (inputs.map (fun inp => inp.canClk)) = true)
    (hprint : clockFrom 0 (inputs.map (fun inp => inp.printClk)) = true) :
    List.Pairwise (fun a b => a + I < b) (fireStamps I last cs) ∧
    List.Pairwise (fun a b => a + 100 ≤ b) (canStamps inputs s) ∧
    List.Pairwise (fun a b => a + 200 ≤ b) (printStamps inputs s) := by
  refine ⟨fireStamps_spaced I cs last 0 hclk, ?_, ?_⟩
  · rw [canStamps_eq inputs s hc]
    exact (fireStamps_spaced 100 _ s.lastTransmit 0 hcan).imp (fun h => Nat.le_of_lt h)
  · rw [printStamps_eq inputs s hc]
    exact (fireStamps_spaced 200 _ s.lastPrint 0 hprint).imp (fun h => Nat.le_of_lt h)

/-- Five calls of a `100` ms timer and three iterations of `loop` from the initial state. -/
theorem every_firings_spaced_witness :
    List.Pairwise (fun a b => a + 100 < b)
      (fireStamps 100 0 [⟨50, 50⟩, ⟨101, 102⟩, ⟨150, 150⟩, ⟨202, 202⟩, ⟨203, 203⟩]) ∧
    List.Pairwise (fun a b => a + 100 ≤ b)
      (canStamps [⟨fun _ => 2045, ⟨101, 101⟩, ⟨101, 102⟩⟩, ⟨fun _ => 0, ⟨202, 202⟩, ⟨202, 202⟩⟩,
        ⟨fun _ => 4095, ⟨203, 203⟩, ⟨203, 204⟩⟩] init) ∧
    List.Pairwise (fun a b => a + 200 ≤ b)
      (printStamps [⟨fun _ => 2045, ⟨101, 101⟩, ⟨101, 102⟩⟩, ⟨fun _ => 0, ⟨202, 202⟩, ⟨202, 202⟩⟩,
        ⟨fun _ => 4095, ⟨203, 203⟩, ⟨203, 204⟩⟩] init) :=
  every_firings_spaced 100 0 [⟨50, 50⟩, ⟨101, 102⟩, ⟨150, 150⟩, ⟨202, 202⟩, ⟨203, 203⟩] (by decide)
    [⟨fun _ => 2045, ⟨101, 101⟩, ⟨101, 102⟩⟩, ⟨fun _ => 0, ⟨202, 202⟩, ⟨202, 202⟩⟩,
      ⟨fun _ => 4095, ⟨203, 203⟩, ⟨203, 204⟩⟩] init init_calibOk (by decide) (by decide)

/-- C8 fails as stated: with `I = 100`, a call at time `101` fires and stores `101`; the next
call at time `201`, exactly `100` ms after that firing, does not run `fn`. -/
theorem every_exact_interval_counterexample :
    every 100 (fun n : Nat => n + 1) ⟨101, 101⟩ 0 0 = (101, 1) ∧
    elapsed 201 101 = 100 ∧
    every 100 (fun n : Nat => n + 1) ⟨201, 201⟩ 101 1 = (101, 1) ∧
    everyRuns 100 ⟨201, 201⟩ 101 = 0 := by
  decide

/-- C8 (amended): a call of `every(I, fn)` at which more than `I` milliseconds have elapsed
since the stored timestamp runs `fn` exactly once; a call at which exactly `I` milliseconds have
elapsed does not run `fn`. -/
theorem every_fires_when_exceeding {σ : Type} (I : Nat) (fn : σ → σ) (clk : Millis) (last : Nat)
    (s : σ) :
    (I < elapsed clk.atTest last →
      (every I fn clk last s).2 = fn s ∧ everyRuns I clk last = 1) ∧
    (elapsed clk.atTest last = I →
      (every I fn clk last s).2 = s ∧ everyRuns I clk last = 0) := by
  refine ⟨fun h => ⟨?_, ?_⟩, fun h => ⟨?_, ?_⟩⟩
  · rw [every_of_fires I fn clk last s h]
  · rw [everyRuns, every_of_fires I _ clk last 0 h]
  · rw [every_of_idle I fn clk last s (Nat.le_of_eq h)]
  · rw [everyRuns, every_of_idle I _ clk last 0 (Nat.le_of_eq h)]

/-- With `I = 100` and the stored timestamp `101`: a call at `202` runs the action once, a call
at `201` does not run it. -/
theorem every_fires_when_exceeding_witness :
    ((every 100 (fun n : Nat => n + 1) ⟨202, 202⟩ 101 5).2 = 6 ∧ everyRuns 100 ⟨202, 202⟩ 101 = 1) ∧
    ((every 100 (fun n : Nat => n + 1) ⟨201, 201⟩ 101 5).2 = 5 ∧ everyRuns 100 ⟨201, 201⟩ 101 = 0) :=
  ⟨(every_fires_when_exceeding 100 (fun n : Nat => n + 1) ⟨202, 202⟩ 101 5).1 (by decide),
   (every_fires_when_exceeding 100 (fun n : Nat => n + 1) ⟨201, 201⟩ 101 5).2 (by decide)⟩

/-- C9: the throttle has no catch-up.  After a gap of any length greater than `I`, one call
runs `fn` once and stores the current clock reading (whatever `last + I` is), and a following
call at any clock reading within `I` of the stored reading does not run `fn` and leaves the
timestamp alone. -/
theorem every_no_catch_up {σ : Type} (I : Nat) (fn : σ → σ) (clk next : Millis) (last : Nat)
    (s : σ) (hgap : I < elapsed clk.atTest last) (hclk : clk.atStore < 4294967296)
    (hnext : clk.atStore ≤ next.atTest) (hwithin : next.atTest ≤ clk.atStore + I)
    (hnext32 : next.atTest < 4294967296) :
    every I fn clk last s = (clk.atStore, fn s) ∧ everyRuns I clk last = 1 ∧
    every I fn next (every I fn clk last s).1 (every I fn clk last s).2 = (clk.atStore, fn s) ∧
    everyRuns I next (every I fn clk last s).1 = 0 := by
  have h1 : every I fn clk last s = (clk.atStore, fn s) := by
    rw [every_of_fires I fn clk last s hgap, wrapU32_eq _ hclk]
  have h2 : elapsed next.atTest clk.atStore ≤ I := by
    rw [elapsed_eq_sub _ _ hnext hnext32]; omega
  refine ⟨h1, ?_, ?_, ?_⟩
  · rw [everyRuns, every_of_fires I _ clk last 0 hgap]
  · rw [h1]; exact every_of_idle I fn next clk.atStore (fn s) h2
  · rw [h1, everyRuns, every_of_idle I _ next clk.atStore 0 h2]

/-- With `I = 100` and `last = 0`, a call at time `1000` (ten intervals late) fires once and
stores `1000`; the next call at time `1050` does not fire. -/
theorem every_no_catch_up_witness :
    every 100 (fun n : Nat => n + 1) ⟨1000, 1000⟩ 0 0 = (1000, 1) ∧
    everyRuns 100 ⟨1000, 1000⟩ 0 = 1 ∧
    every 100 (fun n : Nat => n + 1) ⟨1050, 1050⟩
      (every 100 (fun n : Nat => n + 1) ⟨1000, 1000⟩ 0 0).1
      (every 100 (fun n : Nat => n + 1) ⟨1000, 1000⟩ 0 0).2 = (1000, 1) ∧
    everyRuns 100 ⟨1050, 1050⟩ (every 100 (fun n : Nat => n + 1) ⟨1000, 1000⟩ 0 0).1 = 0 :=
  every_no_catch_up 100 (fun n : Nat => n + 1) ⟨1000, 1000⟩ ⟨1050, 1050⟩ 0 0
    (by decide) (by decide) (by decide) (by decide) (by decide)

/-- C10: whenever `transmitCAN` fires on a state whose percentages are in `[0, 32768]`, exactly
one message is handed to the CAN interface; it has identifier `0x110`, length `3`, and for each
`i` in `{0, 1, 2}` its byte `i` is `floor(knobPercent[i] * 255 / 32768)` of the current state. -/
theorem transmitCAN_message (clk : Millis) (s : State) (hinv : PercentInv s)
    (hfire : everyFires 100 clk s.lastTransmit = true) :
    ∃ m : CANMessage, (transmitCAN clk s).canOut = s.canOut ++ [m] ∧
      m.id = 0x110 ∧ m.len = 3 ∧
      ∀ i : Fin knobCount, m.data[i.val]? = some (s.knobPercent i * 255 / 32768) := by
  refine ⟨canMessage s, ?_, rfl, rfl, ?_⟩
  · rw [transmitCAN_of_fires clk s hfire]
  · intro i
    have hi : i = ⟨0, by decide⟩ ∨ i = ⟨1, by decide⟩ ∨ i = ⟨2, by decide⟩ := by
      revert i; decide
    rw [canMessage_data]
    rcases hi with rfl | rfl | rfl
    · rw [← percentToByte_eq _ (hinv _)]; simp
    · rw [← percentToByte_eq _ (hinv _)]; simp
    · rw [← percentToByte_eq _ (hinv _)]; simp

/-- From `sampleState`, a call of `transmitCAN` at time `101` sends one message. -/
theorem transmitCAN_message_witness :
    ∃ m : CANMessage, (transmitCAN ⟨101, 101⟩ sampleState).canOut = sampleState.canOut ++ [m] ∧
      m.id = 0x110 ∧ m.len = 3 ∧
      ∀ i : Fin knobCount, m.data[i.val]? = some (sampleState.knobPercent i * 255 / 32768) :=
  transmitCAN_message ⟨101, 101⟩ sampleState (by decide) (by decide)

/-- C11: end-to-end at the calibration endpoints with `low = 30` and `high = 4060`.  A raw
sample of `30` normalises to `0` and packs to byte `0`; a raw sample of `4060` normalises to
`32768` and packs to byte `255`; an iteration of `loop` from the initial state that samples
these values and transmits sends the payloads `0, 0, 0` and `255, 255, 255`. -/
theorem endpoints_end_to_end :
    normalize 30 30 4060 = some 0 ∧ percentToByte 0 = 0 ∧
    normalize 4060 30 4060 = some 32768 ∧ percentToByte 32768 = 255 ∧
    (loop ⟨fun _ => 30, ⟨201, 201⟩, ⟨201, 201⟩⟩ init).map
        (fun s => ((List.finRange knobCount).map s.knobPercent, s.canOut.map CANMessage.data))
      = some ([0, 0, 0], [[0, 0, 0, 0, 0, 0, 0, 0]]) ∧
    (loop ⟨fun _ => 4060, ⟨201, 201⟩, ⟨201, 201⟩⟩ init).map
        (fun s => ((List.finRange knobCount).map s.knobPercent, s.canOut.map CANMessage.data))
      = some ([32768, 32768, 32768], [[255, 255, 255, 0, 0, 0, 0, 0]]) := by
  decide

/-- C12: end-to-end at the midpoint with `low = 30` and `high = 4060`.  A raw sample of `2045`
normalises to a percentage that agrees with the approximate figure `16367` to within `17` counts
(about 0.05% of full scale; the exact value is `16384`) and packs to byte `127`, the byte that
`16367` itself packs to; an iteration of `loop` from the initial state that samples this value
and transmits sends the payload `127, 127, 127`. -/
theorem midpoint_end_to_end :
    (∃ p : Nat, normalize 2045 30 4060 = some p ∧ p = 16384 ∧
      Int.natAbs ((p : Int) - 16367) ≤ 17 ∧ percentToByte p = 127) ∧
    percentToByte 16367 = 127 ∧
    (loop ⟨fun _ => 2045, ⟨201, 201⟩, ⟨201, 201⟩⟩ init).map
        (fun s => ((List.finRange knobCount).map s.knobPercent, s.canOut.map CANMessage.data))
      = some ([16384, 16384, 16384], [[127, 127, 127, 0, 0, 0, 0, 0]]) :=
  ⟨⟨16384, by decide, rfl, by decide, by decide⟩, by decide, by decide⟩

/-- C13: the byte rescale never truncates.  For every percentage in `[0, 32768]` the product
`percent * 255` fits in a signed 32-bit integer, `floor(percent * 255 / 32768)` lies in
`[0, 255]`, and the unsigned byte stored in the CAN payload is exactly that value. -/
theorem percentToByte_no_truncation (p : Nat) (h : p ≤ 32768) :
    (p : Int) * 255 < 2147483648 ∧ wrapI32 ((p : Int) * 255) = (p : Int) * 255 ∧
    p * 255 / 32768 ≤ 255 ∧ percentToByte p = p * 255 / 32768 := by
  refine ⟨by omega, wrapI32_eq _ (by omega) (by omega), by omega, percentToByte_eq p h⟩

/-- At full scale the product is `8355840` and the byte is `255`. -/
theorem percentToByte_no_truncation_witness :
    ((32768 : Nat) : Int) * 255 < 2147483648 ∧
    wrapI32 (((32768 : Nat) : Int) * 255) = ((32768 : Nat) : Int) * 255 ∧
    32768 * 255 / 32768 ≤ 255 ∧ percentToByte 32768 = 32768 * 255 / 32768 :=
  percentToByte_no_truncation 32768 (by decide)

/-- C14: division by zero is unreachable in the shipped program.  Every run of `loop` from the
initial state succeeds and ends in a state whose bounds are still `low = 30` and `high = 4060`
for every knob; with these bounds the divisor is `4030` and `normalizeKnob` has a result for
every 16-bit raw sample.  In general, for 16-bit bounds, the divisor is zero, and the division
undefined, exactly when `high = low`. -/
theorem division_by_zero_unreachable (inputs : List LoopInput) (raw low high : Nat)
    (hraw : raw < 65536) (hlow : low < 65536) (hhigh : high < 65536) :
    (∃ s', runLoop inputs init = some s' ∧
      ∀ i, s'.knobValueLow i = 30 ∧ s'.knobValueHigh i = 4060) ∧
    wrapU16 ((4060 : Int) - 30) = 4030 ∧
    (∃ p, normalize raw 30 4060 = some p) ∧
    (wrapU16 ((high : Int) - (low : Int)) = 0 ↔ high = low) ∧
    (normalize raw low high = none ↔ high = low) := by
  refine ⟨?_, by decide, ?_, ?_, normalize_eq_none_iff raw low high hraw hlow hhigh⟩
  · obtain ⟨s', hrun, hl, hh⟩ := runLoop_bounds inputs init init_calibOk
    exact ⟨s', hrun, fun i => ⟨by rw [hl]; rfl, by rw [hh]; rfl⟩⟩
  · obtain ⟨p, hp, -⟩ := normalize_le raw 30 4060 hraw (by decide) (by decide)
    exact ⟨p, hp⟩
  · unfold wrapU16; omega

/-- Two iterations from the initial state, a raw sample of `65535`, and the bounds `7`, `7`. -/
theorem division_by_zero_unreachable_witness :
    (∃ s', runLoop [⟨fun _ => 2045, ⟨201, 201⟩, ⟨201, 202⟩⟩, ⟨fun _ => 0, ⟨300, 300⟩, ⟨300, 300⟩⟩]
        init = some s' ∧ ∀ i, s'.knobValueLow i = 30 ∧ s'.knobValueHigh i = 4060) ∧
    wrapU16 ((4060 : Int) - 30) = 4030 ∧
    (∃ p, normalize 65535 30 4060 = some p) ∧
    (wrapU16 (((7 : Nat) : Int) - ((7 : Nat) : Int)) = 0 ↔ 7 = 7) ∧
    (normalize 65535 7 7 = none ↔ 7 = 7) :=
  division_by_zero_unreachable
    [⟨fun _ => 2045, ⟨201, 201⟩, ⟨201, 202⟩⟩, ⟨fun _ => 0, ⟨300, 300⟩, ⟨300, 300⟩⟩]
    65535 7 7 (by decide) (by decide) (by decide)

/-- C15: a loop iteration transmits what it just sampled.  For 16-bit ADC samples and usable
calibration, after `readKnobs` every knob `i` holds its sample as raw value and the
normalisation of that sample under its own bounds as percentage; if the transmit timer fires in
the same iteration, exactly one message is sent and its byte `i` is
`floor(percent[i] * 255 / 32768)` of that percentage. -/
theorem loop_transmits_current_samples (inp : LoopInput) (s : State) (hc : CalibOk s)
    (hadc : ∀ i, 0 ≤ inp.adc i ∧ inp.adc i < 65536) :
    ∃ s1 s', readKnobs inp.adc s = some s1 ∧ loop inp s = some s' ∧
      (∀ i, (s1.knobValueRaw i : Int) = inp.adc i ∧
        normalize (s1.knobValueRaw i) (s.knobValueLow i) (s.knobValueHigh i)
          = some (s1.knobPercent i)) ∧
      (everyFires 100 inp.canClk s.lastTransmit = true →
        ∃ m : CANMessage, s'.canOut = s.canOut ++ [m] ∧
          ∀ i : Fin knobCount, m.data[i.val]? = some (s1.knobPercent i * 255 / 32768)) := by
  obtain ⟨s1, s', hrd, hloop, hs1, hinv, -, -, -, -, -, -, -, hco, -⟩ := loop_outputs inp s hc
  refine ⟨s1, s', hrd, hloop, fun i => ?_, fun hf => ?_⟩
  · obtain ⟨h1, h2⟩ := hs1 i
    refine ⟨?_, by rw [h1]; exact h2⟩
    rw [h1]
    have := hadc i
    unfold wrapU16; omega
  · exact ⟨canMessage s1, by rw [hco, if_pos hf], canMessage_bytes s1 hinv⟩

/-- An iteration from the initial state with the samples `30`, `2045` and `4060` that
transmits. -/
theorem loop_transmits_current_samples_witness :
    ∃ s1 s', readKnobs (fun i => 30 + 2015 * (i.val : Int)) init = some s1 ∧
      loop ⟨fun i => 30 + 2015 * (i.val : Int), ⟨201, 201⟩, ⟨201, 202⟩⟩ init = some s' ∧
      (∀ i, (s1.knobValueRaw i : Int) = 30 + 2015 * (i.val : Int) ∧
        normalize (s1.knobValueRaw i) (init.knobValueLow i) (init.knobValueHigh i)
          = some (s1.knobPercent i)) ∧
      (everyFires 100 ⟨201, 202⟩ init.lastTransmit = true →
        ∃ m : CANMessage, s'.canOut = init.canOut ++ [m] ∧
          ∀ i : Fin knobCount, m.data[i.val]? = some (s1.knobPercent i * 255 / 32768)) :=
  loop_transmits_current_samples ⟨fun i => 30 + 2015 * (i.val : Int), ⟨201, 201⟩, ⟨201, 202⟩⟩
    init init_calibOk (by decide)

/-- C16: the signed 32-bit intermediate of `normalizeKnob` never overflows.  For 16-bit `raw`
and `low` the product `(raw - low) * 32768` has magnitude at most `65535 * 32768 = 2147450880`,
which is below `2 ^ 31`; the 32-bit product and, for every non-zero 16-bit divisor, the 32-bit
quotient equal the exact integer values, so `normalizeKnob` computes what the computation over
the unbounded integers gives. -/
theorem normalize_no_overflow (raw low high : Nat) (hraw : raw < 65536) (hlow : low < 65536) :
    (65535 : Int) * 32768 = 2147450880 ∧ (2147450880 : Int) < 2 ^ 31 ∧
    -2147450880 ≤ ((raw : Int) - (low : Int)) * 32768 ∧
    ((raw : Int) - (low : Int)) * 32768 ≤ 2147450880 ∧
    wrapI32 (wrapI32 ((raw : Int) - (low : Int)) * (knob100Percent : Int))
      = ((raw : Int) - (low : Int)) * 32768 ∧
    (∀ range : Nat, 0 < range → range < 65536 →
      wrapI32 (Int.tdiv (wrapI32 (wrapI32 ((raw : Int) - (low : Int)) * (knob100Percent : Int)))
          (range : Int))
        = Int.tdiv (((raw : Int) - (low : Int)) * 32768) (range : Int)) ∧
    normalize raw low high = normalizeExact raw low high := by
  have e1 : wrapI32 (wrapI32 ((raw : Int) - (low : Int)) * (knob100Percent : Int))
      = ((raw : Int) - (low : Int)) * 32768 := by
    simp only [knob100Percent]
    rw [wrapI32_eq ((raw : Int) - (low : Int)) (by omega) (by omega),
      wrapI32_eq _ (by push_cast; omega) (by push_cast; omega)]
    push_cast; rfl
  have e2 : ∀ range : Nat,
      wrapI32 (Int.tdiv (((raw : Int) - (low : Int)) * 32768) (range : Int))
        = Int.tdiv (((raw : Int) - (low : Int)) * 32768) (range : Int) := by
    intro range
    obtain ⟨h1, h2⟩ := tdiv_bounds (((raw : Int) - (low : Int)) * 32768) range 2147450880
      (by omega) (by omega)
    exact wrapI32_eq _ (by omega) (by omega)
  refine ⟨by decide, by decide, by omega, by omega, e1, fun range _ _ => ?_, ?_⟩
  · rw [e1, e2]
  · unfold normalize normalizeExact
    simp only [e1, e2]
    simp only [knob100Percent, Nat.cast_ofNat]

/-- With `raw = 0` and `low = 65535`, the extreme negative case, and `high = 0`. -/
theorem normalize_no_overflow_witness :
    normalize 0 65535 0 = normalizeExact 0 65535 0 :=
  (normalize_no_overflow 0 65535 0 (by decide) (by decide)).2.2.2.2.2.2

/-- C17: the throttle is correct across wraparound of the 32-bit millisecond counter.  For
every stored timestamp `last` and every true elapsed time `d < 2 ^ 32`, with the clock reading
`(last + d) mod 2 ^ 32` (which is below `last` after a wrap), the elapsed time computed by
`every` is `d`, and the call fires exactly when `d > I`. -/
theorem every_wraparound (I last d atStore : Nat) (hd : d < 4294967296) :
    elapsed ((last + d) % 4294967296) last = d ∧
    (everyFires I ⟨(last + d) % 4294967296, atStore⟩ last = true ↔ I < d) ∧
    (I < d → everyRuns I ⟨(last + d) % 4294967296, atStore⟩ last = 1) ∧
    (d ≤ I → everyRuns I ⟨(last + d) % 4294967296, atStore⟩ last = 0) := by
  have he : elapsed ((last + d) % 4294967296) last = d := by
    unfold elapsed wrapU32; omega
  refine ⟨he, ?_, fun h => ?_, fun h => ?_⟩
  · simp [everyFires, he]
  · rw [everyRuns, every_of_fires I _ _ last 0 (by simpa [he] using h)]
  · rw [everyRuns, every_of_idle I _ _ last 0 (by simpa [he] using h)]

/-- With `last = 4294967290` and `d = 106` the counter has wrapped to `100`; a `100` ms timer
fires. -/
theorem every_wraparound_witness :
    elapsed ((4294967290 + 106) % 4294967296) 4294967290 = 106 ∧
    (everyFires 100 ⟨(4294967290 + 106) % 4294967296, 100⟩ 4294967290 = true ↔ 100 < 106) ∧
    (100 < 106 → everyRuns 100 ⟨(4294967290 + 106) % 4294967296, 100⟩ 4294967290 = 1) ∧
    (106 ≤ 100 → everyRuns 100 ⟨(4294967290 + 106) % 4294967296, 100⟩ 4294967290 = 0) :=
  every_wraparound 100 4294967290 106 100 (by decide)

/-- C18: the full-scale byte is sent only at complete saturation.  For every percentage in
`[0, 32768]` the packed CAN byte is `255` exactly when the percentage is `32768`, and is `0`
exactly when the percentage is at most `128`. -/
theorem percentToByte_extremes (p : Nat) (h : p ≤ 32768) :
    (percentToByte p = 255 ↔ p = 32768) ∧ (percentToByte p = 0 ↔ p ≤ 128) := by
  rw [percentToByte_eq p h]
  constructor <;> omega

/-- At `p = 32768` the byte is `255`, and `32768` is not at most `128`. -/
theorem percentToByte_extremes_witness :
    (percentToByte 32768 = 255 ↔ 32768 = 32768) ∧ (percentToByte 32768 = 0 ↔ 32768 ≤ 128) :=
  percentToByte_extremes 32768 (by decide)

/-- C19: start-up behaviour of the throttle.  Both timers start at `0`.  For every interval
`I`, calls made while the clock reading is at most `I` never fire, and the first call whose
clock reading exceeds `I` fires; over any run of `loop` from the initial state, no CAN frame is
sent while the readings of `transmitCAN` are at most `100` and no console line is written
while the readings of `printKnobs` are at most `200`. -/
theorem every_startup (I : Nat) (early : List Millis) (clk : Millis) (later : List Millis)
    (inputs : List LoopInput) (hearly : ∀ c ∈ early, c.atTest ≤ I) (hfirst : I < clk.atTest)
    (htest : clk.atTest < 4294967296) (hstore : clk.atStore < 4294967296) :
    init.lastPrint = 0 ∧ init.lastTransmit = 0 ∧
    fireStamps I 0 early = [] ∧
    fireStamps I 0 (early ++ clk :: later) = clk.atStore :: fireStamps I clk.atStore later ∧
    (∃ s', runLoop inputs init = some s' ∧
      ((∀ inp ∈ inputs, inp.canClk.atTest ≤ 100) → s'.canOut = []) ∧
      ((∀ inp ∈ inputs, inp.printClk.atTest ≤ 200) → s'.serialOut = [])) := by
  refine ⟨rfl, rfl, ?_, ?_, ?_⟩
  · have := fireStamps_quiet I early [] hearly
    rw [List.append_nil] at this
    rw [this]; rfl
  · rw [fireStamps_quiet I early _ hearly]
    have hf : I < elapsed clk.atTest 0 := by
      rw [elapsed_eq_sub _ _ (Nat.zero_le _) htest]; omega
    have hfire : everyFires I clk 0 = true := by simp [everyFires, hf]
    simp only [fireStamps, hfire, if_true, every_of_fires I id clk 0 () hf, wrapU32_eq _ hstore]
  · obtain ⟨s', hrun, hcan, hprint⟩ := runLoop_quiet inputs init init_calibOk
    exact ⟨s', hrun, fun h => (hcan rfl h).1, fun h => (hprint rfl h).1⟩

/-- A `100` ms timer called at `40`, `100`, `101` and `150`, and two iterations of `loop` at
`40` and `100`. -/
theorem every_startup_witness :
    fireStamps 100 0 [⟨40, 40⟩, ⟨100, 100⟩] = [] ∧
    fireStamps 100 0 ([⟨40, 40⟩, ⟨100, 100⟩] ++ ⟨101, 102⟩ :: [⟨150, 150⟩])
      = 102 :: fireStamps 100 102 [⟨150, 150⟩] ∧
    (∃ s', runLoop [⟨fun _ => 2045, ⟨40, 40⟩, ⟨40, 40⟩⟩, ⟨fun _ => 2045, ⟨100, 100⟩, ⟨100, 100⟩⟩]
        init = some s' ∧
      ((∀ inp ∈ [(⟨fun _ => 2045, ⟨40, 40⟩, ⟨40, 40⟩⟩ : LoopInput),
          ⟨fun _ => 2045, ⟨100, 100⟩, ⟨100, 100⟩⟩], inp.canClk.atTest ≤ 100) → s'.canOut = []) ∧
      ((∀ inp ∈ [(⟨fun _ => 2045, ⟨40, 40⟩, ⟨40, 40⟩⟩ : LoopInput),
          ⟨fun _ => 2045, ⟨100, 100⟩, ⟨100, 100⟩⟩], inp.printClk.atTest ≤ 200) →
        s'.serialOut = [])) :=
  (every_startup 100 [⟨40, 40⟩, ⟨100, 100⟩] ⟨101, 102⟩ [⟨150, 150⟩]
    [⟨fun _ => 2045, ⟨40, 40⟩, ⟨40, 40⟩⟩, ⟨fun _ => 2045, ⟨100, 100⟩, ⟨100, 100⟩⟩]
    (by decide) (by decide) (by decide) (by decide)).2.2

end Knobs
